import Mathlib

/-!
Verification of the osm-ways-slope pipeline (src/main.rs).

The program reads an OSM network and a raster elevation model, selects ways
by a tag filter, samples an elevation per node, and folds over each way's
consecutive node pairs to accumulate distance / climb / descent statistics.

Modelling conventions:
* Rust `f64` arithmetic is modelled by the real numbers `ℝ` (exact
  arithmetic); `f64::atan2` is modelled by `atan2` below with the IEEE
  branch conventions for finite arguments.
* Rust `String` is modelled by `List Char`; `str::split(c)` is modelled by
  `splitOnChar`, which reproduces its semantics (the empty string splits to
  one empty piece, empty pieces between adjacent separators are kept).
* Node ids (`i64`) are modelled by `ℤ`; the node lookup and the elevation
  index, which the program unwraps unconditionally, are modelled by total
  functions `ℤ → Location` and `ℤ → ℝ`.
* The fractional pixel coordinates fed to the `as isize` casts are finite
  `f64` values, hence rationals; the cast is modelled on `ℚ`.
-/

namespace OsmSlope

/-- `Location` (src/main.rs lines 31-35): a latitude/longitude pair in
decimal degrees. -/
structure Location where
  latitude : ℝ
  longitude : ℝ

/-- `WayInfo` (src/main.rs lines 22-29): the statistics record produced for
each way. -/
structure WayInfo where
  distance : ℝ
  climb_distance : ℝ
  descent_distance : ℝ
  climb : ℝ
  descent : ℝ

/-- `Filter` (src/main.rs lines 37-41): one condition of a filter
specification. `Key` models `Filter::Key` (HasKey) and `KeyValue` models
`Filter::KeyValue` (KeyEquals). Strings are modelled as `List Char`. -/
inductive Filter where
  | Key : List Char → Filter
  | KeyValue : List Char → List Char → Filter
deriving DecidableEq

/-- Rust `f64::to_radians`: multiplication by π/180. -/
noncomputable def toRadians (x : ℝ) : ℝ := x * (Real.pi / 180)

/-- `f64::atan2 y x` for finite arguments (quadrant-aware arctangent,
result in (-π, π]). -/
noncomputable def atan2 (y x : ℝ) : ℝ :=
  if 0 < x then Real.arctan (y / x)
  else if x < 0 then
    (if 0 ≤ y then Real.arctan (y / x) + Real.pi else Real.arctan (y / x) - Real.pi)
  else
    (if 0 < y then Real.pi / 2 else if y < 0 then -(Real.pi / 2) else 0)

/-- The intermediate value `a` of `haversine_distance`
(src/main.rs lines 49-50): `sin(d_lat/2)·sin(d_lat/2)
+ sin(d_lon/2)·sin(d_lon/2)·cos(lat1)·cos(lat2)` with `d_lat`, `d_lon`,
`lat1`, `lat2` the radian conversions bound on lines 44-47. -/
noncomputable def hav_a (start finish : Location) : ℝ :=
  Real.sin (toRadians (finish.latitude - start.latitude) / 2)
      * Real.sin (toRadians (finish.latitude - start.latitude) / 2)
    + Real.sin (toRadians (finish.longitude - start.longitude) / 2)
      * Real.sin (toRadians (finish.longitude - start.longitude) / 2)
      * Real.cos (toRadians start.latitude)
      * Real.cos (toRadians finish.latitude)

/-- `haversine_distance` (src/main.rs lines 43-54): returns
`6371.0 * c` with `c = 2 * atan2(sqrt a, sqrt (1 - a))`, in kilometres. -/
noncomputable def haversine_distance (start finish : Location) : ℝ :=
  6371.0 * (2 * atan2 (Real.sqrt (hav_a start finish))
    (Real.sqrt (1 - hav_a start finish)))

/-- Rust `str::split(c)` on a string modelled as a character list: the
separator-delimited pieces, in order, keeping empty pieces; the empty
string yields one empty piece. Used for both `filter.split(',')`
(src/main.rs line 88) and `k_or_kv.split('=')` (line 91). -/
def splitOnChar (c : Char) : List Char → List (List Char)
  | [] => [[]]
  | x :: xs =>
    if x = c then [] :: splitOnChar c xs
    else
      match splitOnChar c xs with
      | [] => [[x]]
      | piece :: rest => (x :: piece) :: rest

/-- src/main.rs lines 91-97: one token of the filter string. `key` is the
first piece of `split('=')` (`split.next().unwrap()`), `value` the second
piece if any (`split.next()`); a token without `=` yields `Filter.Key`,
otherwise `Filter.KeyValue`. -/
def parseToken (tok : List Char) : Filter :=
  match splitOnChar '=' tok with
  | [] => Filter.Key []
  | key :: rest =>
    match rest with
    | [] => Filter.Key key
    | value :: _ => Filter.KeyValue key value

/-- src/main.rs lines 86-101: split the user filter string on `,` and parse
each token. -/
def parseFilters (s : List Char) : List Filter :=
  (splitOnChar ',' s).map parseToken

/-- The characters of `l` strictly before the first occurrence of `c`
(all of `l` if `c` does not occur). Spec-side helper used to phrase the
amended token rule. -/
def takeUntil (c : Char) : List Char → List Char
  | [] => []
  | x :: xs => if x = c then [] else x :: takeUntil c xs

/-- The characters of `l` strictly after the first occurrence of `c`, or
`none` if `c` does not occur. Spec-side helper used to phrase the amended
token rule. -/
def dropThrough (c : Char) : List Char → Option (List Char)
  | [] => none
  | x :: xs => if x = c then some xs else dropThrough c xs

/-- Tag maps are modelled as association lists from key to value; `lookup`
models `tags().get(key)` and key membership. -/
def Tags : Type := List (List Char × List Char)

/-- One condition of the `filter!` closure body (src/main.rs lines 62-75):
`Key k` succeeds iff the tag map contains key `k`
(`tags().contains_key`); `KeyValue k v` succeeds iff the map sends `k` to
exactly `v` (`tags().get(key) == Some(value)`). -/
def condMatches (tags : Tags) : Filter → Bool
  | Filter.Key k => (List.lookup k tags).isSome
  | Filter.KeyValue k v => List.lookup k tags == some v

/-- Modelled from the spec: `HasKey(k)` succeeds iff `tags` contains key
`k` (regardless of value); `KeyEquals(k,v)` succeeds iff `tags[k] == v`
exactly (§4.1). Spec-side predicate compared against `condMatches`. -/
def condHolds (tags : Tags) : Filter → Prop
  | Filter.Key k => ∃ v, List.lookup k tags = some v
  | Filter.KeyValue k v => List.lookup k tags = some v

/-- The `filter!` closure (src/main.rs lines 57-80): `ret_val` starts
`false` and is set to `true` by every condition that matches; the final
flag is returned. -/
def filterClosure (filters : List Filter) (tags : Tags) : Bool :=
  filters.foldl (fun ret_val f => if condMatches tags f then true else ret_val) false

/-- Rust's `as isize` cast of a finite `f64` (src/main.rs line 138):
truncation toward zero, modelled on the rationals. -/
def rustTrunc (q : ℚ) : ℤ :=
  if 0 ≤ q then ⌊q⌋ else ⌈q⌉

/-- src/main.rs line 138: the integer pixel index passed to
`rasterband.read_as` is the pair of truncations of the fractional pixel
coordinates `(x, y)` produced by the inverted geotransform. -/
def pixelIndex (x y : ℚ) : ℤ × ℤ :=
  (rustTrunc x, rustTrunc y)

/-- src/main.rs lines 171-173: the segment list of a way,
`way.nodes.iter().zip(way.nodes.iter().skip(1))`. -/
def segPairs (nodes : List ℤ) : List (ℤ × ℤ) :=
  nodes.zip (nodes.drop 1)

/-- src/main.rs lines 174-207: the body of the per-segment loop. `loc`
models the node lookup into `objs` (latitude/longitude) and `elev` the
`node_elevation` map; both are unwrapped unconditionally in the source.
The running `distance` is increased by the segment's haversine length in
metres; then, if `elev a < elev b`, the (cumulative) `distance` is added
to `climb_distance` and the elevation delta to `climb`, otherwise the
(cumulative) `distance` is added to `descent_distance` and the opposite
delta to `descent`. -/
noncomputable def aggregateStep (loc : ℤ → Location) (elev : ℤ → ℝ)
    (s : WayInfo) (ab : ℤ × ℤ) : WayInfo :=
  let d := s.distance + haversine_distance (loc ab.1) (loc ab.2) * 1000
  if elev ab.1 < elev ab.2 then
    { distance := d
      climb_distance := s.climb_distance + d
      descent_distance := s.descent_distance
      climb := s.climb + (elev ab.2 - elev ab.1)
      descent := s.descent }
  else
    { distance := d
      climb_distance := s.climb_distance
      descent_distance := s.descent_distance + d
      climb := s.climb
      descent := s.descent + (elev ab.1 - elev ab.2) }

/-- src/main.rs lines 163-219: the statistics of one way — all five
accumulators start at `0.0` and the segment loop is folded over the
consecutive node pairs. -/
noncomputable def aggregateWay (loc : ℤ → Location) (elev : ℤ → ℝ)
    (nodes : List ℤ) : WayInfo :=
  (segPairs nodes).foldl (aggregateStep loc elev) ⟨0, 0, 0, 0, 0⟩

/-- Modelled from the spec: the haversine intermediate
`a = sin²(Δlat/2) + cos(lat1)·cos(lat2)·sin²(Δlon/2)` (§4.3). -/
noncomputable def spec_hav_a (start finish : Location) : ℝ :=
  Real.sin (toRadians (finish.latitude - start.latitude) / 2) ^ 2
    + Real.cos (toRadians start.latitude) * Real.cos (toRadians finish.latitude)
      * Real.sin (toRadians (finish.longitude - start.longitude) / 2) ^ 2

/-- Modelled from the spec: the per-segment length in metres,
`distance_km = 2·R·atan2(√a, √(1−a))` with `R = 6371.0`, multiplied by
1000 (§4.3). -/
noncomputable def spec_segment_length_m (start finish : Location) : ℝ :=
  2 * 6371.0 * atan2 (Real.sqrt (spec_hav_a start finish))
    (Real.sqrt (1 - spec_hav_a start finish)) * 1000

/-- Concrete node coordinates for counterexamples: node 1 at (0°, 0°),
node 2 at (0°, 90°), node 3 at (0°, 180°). -/
noncomputable def locC : ℤ → Location := fun n =>
  if n = 1 then ⟨0, 0⟩ else if n = 2 then ⟨0, 90⟩ else ⟨0, 180⟩

/-- Concrete elevations for counterexamples: 100, 150, 120 metres for
nodes 1, 2, 3. -/
noncomputable def elevC : ℤ → ℝ := fun n =>
  if n = 1 then 100 else if n = 2 then 150 else 120

/-- For a non-negative ordinate, `atan2` is non-negative. -/
theorem atan2_nonneg {y x : ℝ} (hy : 0 ≤ y) : 0 ≤ atan2 y x := by
  unfold atan2
  split_ifs with h1 h2 h3 h4 h5 <;>
    first
      | (exfalso; linarith)
      | (have hm := Real.arctan_strictMono.monotone (div_nonneg hy h1.le)
         rwa [Real.arctan_zero] at hm)
      | (have ha := Real.neg_pi_div_two_lt_arctan (y / x)
         have hpi := Real.pi_pos
         linarith)
      | positivity
      | exact le_refl 0

/-- For a positive ordinate and non-negative abscissa, `atan2` is
positive. -/
theorem atan2_pos {y x : ℝ} (hy : 0 < y) (hx : 0 ≤ x) : 0 < atan2 y x := by
  unfold atan2
  split_ifs with h1 h2 h3 h4 h5 <;>
    first
      | (exfalso; linarith)
      | (have hm := Real.arctan_strictMono (div_pos hy h1)
         rwa [Real.arctan_zero] at hm)
      | positivity

/-- The haversine distance of the source is non-negative. -/
theorem haversine_nonneg (p q : Location) : 0 ≤ haversine_distance p q := by
  unfold haversine_distance
  have h := atan2_nonneg (x := Real.sqrt (1 - hav_a p q))
    (Real.sqrt_nonneg (hav_a p q))
  linarith

/-- The haversine intermediate `a` is symmetric in its two endpoints. -/
theorem hav_a_comm (p q : Location) : hav_a p q = hav_a q p := by
  unfold hav_a
  rw [show toRadians (p.latitude - q.latitude)
        = -toRadians (q.latitude - p.latitude) from by unfold toRadians; ring,
      show toRadians (p.longitude - q.longitude)
        = -toRadians (q.longitude - p.longitude) from by unfold toRadians; ring,
      neg_div, neg_div, Real.sin_neg, Real.sin_neg]
  ring

/-- C9: the haversine distance function is symmetric,
`dist(A,B) = dist(B,A)`, and `dist(A,A) = 0` for every location. -/
theorem haversine_symm_and_self_zero :
    (∀ A B : Location, haversine_distance A B = haversine_distance B A)
      ∧ (∀ A : Location, haversine_distance A A = 0) := by
  constructor
  · intro A B
    unfold haversine_distance
    rw [hav_a_comm]
  · intro A
    have ha : hav_a A A = 0 := by
      unfold hav_a toRadians
      simp
    unfold haversine_distance
    rw [ha, Real.sqrt_zero, sub_zero, Real.sqrt_one]
    unfold atan2
    norm_num

/-- The `a` of the spec's formula coincides with the `a` computed by the
source. -/
theorem spec_hav_a_eq (p q : Location) : spec_hav_a p q = hav_a p q := by
  unfold spec_hav_a hav_a
  ring

/-- The distance added by one loop iteration, as an equation on
`aggregateStep`. -/
theorem aggregateStep_distance (loc : ℤ → Location) (elev : ℤ → ℝ)
    (s : WayInfo) (ab : ℤ × ℤ) :
    (aggregateStep loc elev s ab).distance
      = s.distance + haversine_distance (loc ab.1) (loc ab.2) * 1000 := by
  simp only [aggregateStep]
  split <;> rfl

/-- C4: each segment adds to `distance` exactly the spec's haversine
great-circle length — `a = sin²(Δlat/2) + cos(lat1)·cos(lat2)·sin²(Δlon/2)`,
`distance_km = 2·R·atan2(√a, √(1−a))`, `R = 6371.0` — converted to
metres. -/
theorem segment_distance_is_spec_haversine :
    (∀ p q : Location, haversine_distance p q * 1000 = spec_segment_length_m p q)
      ∧ (∀ (loc : ℤ → Location) (elev : ℤ → ℝ) (s : WayInfo) (ab : ℤ × ℤ),
          (aggregateStep loc elev s ab).distance
            = s.distance + spec_segment_length_m (loc ab.1) (loc ab.2)) := by
  have key : ∀ p q : Location,
      haversine_distance p q * 1000 = spec_segment_length_m p q := by
    intro p q
    unfold haversine_distance spec_segment_length_m
    rw [spec_hav_a_eq]
    ring
  exact ⟨key, fun loc elev s ab => by
    rw [aggregateStep_distance, key]⟩

/-- The climb accumulator after one loop iteration. -/
theorem aggregateStep_climb (loc : ℤ → Location) (elev : ℤ → ℝ)
    (s : WayInfo) (ab : ℤ × ℤ) :
    (aggregateStep loc elev s ab).climb
      = if elev ab.1 < elev ab.2 then s.climb + (elev ab.2 - elev ab.1)
        else s.climb := by
  simp only [aggregateStep]
  split <;> rfl

/-- The descent accumulator after one loop iteration. -/
theorem aggregateStep_descent (loc : ℤ → Location) (elev : ℤ → ℝ)
    (s : WayInfo) (ab : ℤ × ℤ) :
    (aggregateStep loc elev s ab).descent
      = if elev ab.1 < elev ab.2 then s.descent
        else s.descent + (elev ab.1 - elev ab.2) := by
  simp only [aggregateStep]
  split <;> rfl

/-- The climb-distance accumulator after one loop iteration. -/
theorem aggregateStep_climb_distance (loc : ℤ → Location) (elev : ℤ → ℝ)
    (s : WayInfo) (ab : ℤ × ℤ) :
    (aggregateStep loc elev s ab).climb_distance
      = if elev ab.1 < elev ab.2 then
          s.climb_distance + (aggregateStep loc elev s ab).distance
        else s.climb_distance := by
  simp only [aggregateStep]
  split <;> rfl

/-- The descent-distance accumulator after one loop iteration. -/
theorem aggregateStep_descent_distance (loc : ℤ → Location) (elev : ℤ → ℝ)
    (s : WayInfo) (ab : ℤ × ℤ) :
    (aggregateStep loc elev s ab).descent_distance
      = if elev ab.1 < elev ab.2 then s.descent_distance
        else s.descent_distance + (aggregateStep loc elev s ab).distance := by
  simp only [aggregateStep]
  split <;> rfl

/-- C3: a segment `(a, b)` is classified as climb precisely when
`elev b > elev a`, in which case `elev b − elev a` is added to `climb`;
otherwise — including the equal-elevation case — it is classified as
descent and `elev a − elev b` is added to `descent`. The distance
accumulators follow the same classification. -/
theorem segment_classification (loc : ℤ → Location) (elev : ℤ → ℝ)
    (s : WayInfo) (a b : ℤ) :
    ((aggregateStep loc elev s (a, b)).climb
        = if elev b > elev a then s.climb + (elev b - elev a) else s.climb)
      ∧ ((aggregateStep loc elev s (a, b)).descent
        = if elev b > elev a then s.descent else s.descent + (elev a - elev b))
      ∧ ((aggregateStep loc elev s (a, b)).climb_distance
        = if elev b > elev a then
            s.climb_distance + (aggregateStep loc elev s (a, b)).distance
          else s.climb_distance)
      ∧ ((aggregateStep loc elev s (a, b)).descent_distance
        = if elev b > elev a then s.descent_distance
          else s.descent_distance + (aggregateStep loc elev s (a, b)).distance) :=
  ⟨aggregateStep_climb loc elev s (a, b),
   aggregateStep_descent loc elev s (a, b),
   aggregateStep_climb_distance loc elev s (a, b),
   aggregateStep_descent_distance loc elev s (a, b)⟩

/-- `splitOnChar` yields the text before the first separator, followed by
the split of the text after it (or just the whole text when the separator
is absent). -/
theorem splitOnChar_eq (c : Char) : ∀ l : List Char,
    splitOnChar c l
      = takeUntil c l ::
          (match dropThrough c l with
           | none => []
           | some rest => splitOnChar c rest)
  | [] => rfl
  | x :: xs => by
    by_cases h : x = c
    · simp [splitOnChar, takeUntil, dropThrough, h]
    · simp only [splitOnChar, takeUntil, dropThrough, if_neg h]
      rw [splitOnChar_eq c xs]

/-- When the separator does not occur, `takeUntil` is the identity. -/
theorem takeUntil_of_dropThrough_none (c : Char) : ∀ l : List Char,
    dropThrough c l = none → takeUntil c l = l
  | [] => fun _ => rfl
  | x :: xs => by
    intro h
    by_cases hx : x = c
    · simp [dropThrough, hx] at h
    · simp only [dropThrough, if_neg hx] at h
      simp only [takeUntil, if_neg hx]
      rw [takeUntil_of_dropThrough_none c xs h]

/-- One filter token parses to `Key tok` when `tok` has no `=`, and
otherwise to `KeyValue` of the text before the first `=` and the text
between the first `=` and the next `=` (or the end of the token). -/
theorem parseToken_eq (tok : List Char) :
    parseToken tok
      = match dropThrough '=' tok with
        | none => Filter.Key tok
        | some rest => Filter.KeyValue (takeUntil '=' tok) (takeUntil '=' rest) := by
  unfold parseToken
  rw [splitOnChar_eq '=' tok]
  cases h : dropThrough '=' tok with
  | none =>
    simp only
    rw [takeUntil_of_dropThrough_none '=' tok h]
  | some rest =>
    simp only
    rw [splitOnChar_eq '=' rest]

/-- C2 (amended): the filter string splits on `,` into tokens; a token
with no `=` yields `Key` of the token; a token with an `=` yields
`KeyValue` whose key is the text before the first `=` and whose value is
the text between the first `=` and the next `=` or the end of the token
(text after a second `=` is discarded). -/
theorem filter_string_parsing (s : List Char) :
    parseFilters s
      = (splitOnChar ',' s).map (fun tok =>
          match dropThrough '=' tok with
          | none => Filter.Key tok
          | some rest => Filter.KeyValue (takeUntil '=' tok) (takeUntil '=' rest)) := by
  unfold parseFilters
  exact List.map_congr_left fun tok _ => parseToken_eq tok

/-- C2 (counterexample): the token `k=v=w` parses to `KeyValue "k" "v"`,
not to `KeyValue "k" "v=w"` as the claim states. -/
theorem filter_string_parsing_counterexample :
    parseFilters ['k', '=', 'v', '=', 'w']
        = [Filter.KeyValue ['k'] ['v']]
      ∧ parseFilters ['k', '=', 'v', '=', 'w']
        ≠ [Filter.KeyValue ['k'] ['v', '=', 'w']] := by
  decide

/-- The mutable-flag fold of the `filter!` closure computes the
disjunction of the per-condition matches. -/
theorem filterClosure_foldl_flag (tags : Tags) : ∀ (fs : List Filter) (r : Bool),
    fs.foldl (fun ret_val f => if condMatches tags f then true else ret_val) r
      = (r || fs.any (condMatches tags))
  | [], r => by simp
  | f :: fs, r => by
    rw [List.foldl_cons, filterClosure_foldl_flag tags fs, List.any_cons]
    cases h : condMatches tags f <;> simp [h]

/-- A condition matches (as a boolean) exactly when its spec-side reading
holds. -/
theorem condMatches_iff (tags : Tags) (f : Filter) :
    condMatches tags f = true ↔ condHolds tags f := by
  cases f with
  | Key k =>
    simp only [condMatches, condHolds, Option.isSome_iff_exists]
  | KeyValue k v =>
    simp only [condMatches, condHolds, beq_iff_eq]

/-- C6: the filter closure returns true iff at least one condition of the
spec succeeds — `HasKey k` iff the tag map contains key `k` regardless of
value, `KeyEquals k v` iff the map sends `k` to exactly `v` — and it
returns false on the empty spec. -/
theorem tag_predicate_semantics (tags : Tags) (filters : List Filter) :
    (filterClosure filters tags = true ↔ ∃ f ∈ filters, condHolds tags f)
      ∧ filterClosure [] tags = false := by
  refine ⟨?_, rfl⟩
  unfold filterClosure
  rw [filterClosure_foldl_flag tags filters false, Bool.false_or, List.any_eq_true]
  exact exists_congr fun f => and_congr_right fun _ => condMatches_iff tags f

/-- C7: the fractional-to-integer pixel conversion truncates toward zero;
for a negative non-integer coordinate the chosen index is the ceiling,
i.e. the larger of the two adjacent integers `⌊x⌋ < ⌈x⌉ = ⌊x⌋ + 1`. -/
theorem pixel_truncation_toward_zero (x y : ℚ) (hx : x < 0) (hden : x.den ≠ 1) :
    (pixelIndex x y).1 = ⌈x⌉ ∧ ⌈x⌉ = ⌊x⌋ + 1 ∧ ⌊x⌋ < ⌈x⌉ := by
  have htr : (pixelIndex x y).1 = ⌈x⌉ := by
    show rustTrunc x = ⌈x⌉
    unfold rustTrunc
    rw [if_neg (not_le.mpr hx)]
  have hfl : (⌊x⌋ : ℚ) ≠ x := by
    intro h
    apply hden
    rw [← h]
    exact Rat.den_intCast ⌊x⌋
  have hce : x ≠ (⌈x⌉ : ℚ) := by
    intro h
    apply hden
    rw [h]
    exact Rat.den_intCast ⌈x⌉
  have h1 : (⌊x⌋ : ℚ) < x := lt_of_le_of_ne (Int.floor_le x) hfl
  have h2 : x < (⌈x⌉ : ℚ) := lt_of_le_of_ne (Int.le_ceil x) hce
  have hlt : ⌊x⌋ < ⌈x⌉ := by exact_mod_cast h1.trans h2
  have hle : ⌈x⌉ ≤ ⌊x⌋ + 1 := Int.ceil_le_floor_add_one x
  exact ⟨htr, by omega, hlt⟩

/-- Witness for C7 at the concrete coordinate `-3/2`. -/
theorem pixel_truncation_toward_zero_witness :
    (mkRat (-3) 2 < 0) ∧ (mkRat (-3) 2).den ≠ 1
      ∧ ((pixelIndex (mkRat (-3) 2) 0).1 = ⌈mkRat (-3) 2⌉
          ∧ ⌈mkRat (-3) 2⌉ = ⌊mkRat (-3) 2⌋ + 1 ∧ ⌊mkRat (-3) 2⌋ < ⌈mkRat (-3) 2⌉) :=
  ⟨by decide, by decide,
   pixel_truncation_toward_zero (mkRat (-3) 2) 0 (by decide) (by decide)⟩

/-- The segment list has one element fewer than the node list. -/
theorem segPairs_length (nodes : List ℤ) :
    (segPairs nodes).length = nodes.length - 1 := by
  unfold segPairs
  rw [List.length_zip, List.length_drop]
  omega

/-- The `i`-th segment is the pair of the `i`-th and `(i+1)`-th nodes. -/
theorem segPairs_get : ∀ (nodes : List ℤ) (i : ℕ) (a b : ℤ),
    nodes[i]? = some a → nodes[i + 1]? = some b →
    (segPairs nodes)[i]? = some (a, b)
  | [], i, a, b => by simp
  | [x], i, a, b => by
    cases i <;> simp
  | x :: y :: t, 0, a, b => by
    intro ha hb
    rw [List.getElem?_cons_zero, Option.some_inj] at ha
    rw [List.getElem?_cons_succ, List.getElem?_cons_zero, Option.some_inj] at hb
    subst ha
    subst hb
    rw [show segPairs (x :: y :: t) = (x, y) :: segPairs (y :: t) from rfl,
        List.getElem?_cons_zero]
  | x :: y :: t, i + 1, a, b => by
    intro ha hb
    have hrec := segPairs_get (y :: t) i a b
    rw [List.getElem?_cons_succ] at ha
    rw [List.getElem?_cons_succ] at hb
    rw [show segPairs (x :: y :: t) = (x, y) :: segPairs (y :: t) from rfl,
        List.getElem?_cons_succ]
    exact hrec ha hb

/-- C5: the aggregator iterates exactly the `n − 1` consecutive node
pairs — the segment list has length `n − 1` and its `i`-th element is the
pair of nodes `i` and `i + 1` — and a way with at most one node produces
the all-zero statistics record. -/
theorem way_segment_iteration (loc : ℤ → Location) (elev : ℤ → ℝ)
    (nodes : List ℤ) :
    (segPairs nodes).length = nodes.length - 1
      ∧ (∀ (i : ℕ) (a b : ℤ), nodes[i]? = some a → nodes[i + 1]? = some b →
          (segPairs nodes)[i]? = some (a, b))
      ∧ (nodes.length ≤ 1 → aggregateWay loc elev nodes = ⟨0, 0, 0, 0, 0⟩) := by
  refine ⟨segPairs_length nodes, segPairs_get nodes, ?_⟩
  intro hlen
  match nodes, hlen with
  | [], _ => rfl
  | [x], _ => rfl

/-- Witness for C5: a one-node way yields the all-zero record, and on the
way `[1, 2, 3]` the second segment is `(2, 3)`. -/
theorem way_segment_iteration_witness :
    ([(7 : ℤ)].length ≤ 1
        ∧ aggregateWay (fun _ => ⟨0, 0⟩) (fun _ => 0) [(7 : ℤ)] = ⟨0, 0, 0, 0, 0⟩)
      ∧ (([(1 : ℤ), 2, 3])[1]? = some 2 ∧ ([(1 : ℤ), 2, 3])[2]? = some 3
        ∧ (segPairs [(1 : ℤ), 2, 3])[1]? = some (2, 3)) :=
  ⟨⟨by decide,
    (way_segment_iteration (fun _ => ⟨0, 0⟩) (fun _ => 0) [(7 : ℤ)]).2.2 (by decide)⟩,
   ⟨by decide, by decide,
    (way_segment_iteration (fun _ => ⟨0, 0⟩) (fun _ => 0) [(1 : ℤ), 2, 3]).2.1
      1 2 3 (by decide) (by decide)⟩⟩

/-- Folding the segment loop from a state with non-negative accumulators
keeps every accumulator non-negative. -/
theorem foldl_aggregateStep_nonneg (loc : ℤ → Location) (elev : ℤ → ℝ) :
    ∀ (l : List (ℤ × ℤ)) (s : WayInfo),
      0 ≤ s.distance → 0 ≤ s.climb_distance → 0 ≤ s.descent_distance →
      0 ≤ s.climb → 0 ≤ s.descent →
      0 ≤ (l.foldl (aggregateStep loc elev) s).distance
        ∧ 0 ≤ (l.foldl (aggregateStep loc elev) s).climb_distance
        ∧ 0 ≤ (l.foldl (aggregateStep loc elev) s).descent_distance
        ∧ 0 ≤ (l.foldl (aggregateStep loc elev) s).climb
        ∧ 0 ≤ (l.foldl (aggregateStep loc elev) s).descent
  | [], s, h1, h2, h3, h4, h5 => ⟨h1, h2, h3, h4, h5⟩
  | ab :: t, s, h1, h2, h3, h4, h5 => by
    rw [List.foldl_cons]
    have hhav := haversine_nonneg (loc ab.1) (loc ab.2)
    have hd : 0 ≤ (aggregateStep loc elev s ab).distance := by
      rw [aggregateStep_distance]
      linarith
    apply foldl_aggregateStep_nonneg loc elev t (aggregateStep loc elev s ab) hd
    · rw [aggregateStep_climb_distance]
      split_ifs
      · linarith
      · exact h2
    · rw [aggregateStep_descent_distance]
      split_ifs
      · exact h3
      · linarith
    · rw [aggregateStep_climb]
      split_ifs with h
      · linarith
      · exact h4
    · rw [aggregateStep_descent]
      split_ifs with h
      · exact h5
      · have : elev ab.2 ≤ elev ab.1 := not_lt.mp h
        linarith

/-- C8: for any node coordinates and elevations, every field of the
produced statistics record is non-negative. -/
theorem way_statistics_nonneg (loc : ℤ → Location) (elev : ℤ → ℝ)
    (nodes : List ℤ) :
    0 ≤ (aggregateWay loc elev nodes).distance
      ∧ 0 ≤ (aggregateWay loc elev nodes).climb_distance
      ∧ 0 ≤ (aggregateWay loc elev nodes).descent_distance
      ∧ 0 ≤ (aggregateWay loc elev nodes).climb
      ∧ 0 ≤ (aggregateWay loc elev nodes).descent := by
  unfold aggregateWay
  exact foldl_aggregateStep_nonneg loc elev (segPairs nodes) ⟨0, 0, 0, 0, 0⟩
    le_rfl le_rfl le_rfl le_rfl le_rfl

/-- One loop iteration changes `climb − descent` by exactly the segment's
elevation delta, in either branch. -/
theorem aggregateStep_climb_sub_descent (loc : ℤ → Location) (elev : ℤ → ℝ)
    (s : WayInfo) (ab : ℤ × ℤ) :
    (aggregateStep loc elev s ab).climb - (aggregateStep loc elev s ab).descent
      = s.climb - s.descent + (elev ab.2 - elev ab.1) := by
  rw [aggregateStep_climb, aggregateStep_descent]
  split_ifs with h
  · ring
  · have : elev ab.2 ≤ elev ab.1 := not_lt.mp h
    ring

/-- Folding the segment loop over a non-empty way telescopes
`climb − descent` to the elevation difference between the last and the
first node. -/
theorem foldl_climb_sub_descent (loc : ℤ → Location) (elev : ℤ → ℝ) :
    ∀ (t : List ℤ) (a : ℤ) (s : WayInfo),
      ((segPairs (a :: t)).foldl (aggregateStep loc elev) s).climb
          - ((segPairs (a :: t)).foldl (aggregateStep loc elev) s).descent
        = s.climb - s.descent
            + (elev ((a :: t).getLast (List.cons_ne_nil a t)) - elev a)
  | [], a, s => by
    rw [show segPairs [a] = [] from rfl, List.foldl_nil, List.getLast_singleton]
    ring
  | b :: t', a, s => by
    rw [show segPairs (a :: b :: t') = (a, b) :: segPairs (b :: t') from rfl,
        List.foldl_cons,
        foldl_climb_sub_descent loc elev t' b (aggregateStep loc elev s (a, b)),
        aggregateStep_climb_sub_descent,
        List.getLast_cons (List.cons_ne_nil b t')]
    ring

/-- C10: for a non-empty way (with every node elevation present, as the
model's total elevation index guarantees), the per-segment deltas
telescope — `climb − descent` equals the elevation of the last node minus
the elevation of the first node. -/
theorem climb_minus_descent_telescopes (loc : ℤ → Location) (elev : ℤ → ℝ)
    (nodes : List ℤ) (h : nodes ≠ []) :
    (aggregateWay loc elev nodes).climb - (aggregateWay loc elev nodes).descent
      = elev (nodes.getLast h) - elev (nodes.head h) := by
  match nodes, h with
  | a :: t, h =>
    unfold aggregateWay
    rw [foldl_climb_sub_descent loc elev t a ⟨0, 0, 0, 0, 0⟩, List.head_cons]
    show (0 : ℝ) - 0 + _ = _
    ring

/-- Witness for C10 on the two-node way `[1, 2]` with elevation
`elev n = n`. -/
theorem climb_minus_descent_telescopes_witness :
    ([(1 : ℤ), 2] ≠ [])
      ∧ (aggregateWay (fun _ => ⟨0, 0⟩) (fun n => (n : ℝ)) [1, 2]).climb
          - (aggregateWay (fun _ => ⟨0, 0⟩) (fun n => (n : ℝ)) [1, 2]).descent
        = ((([(1 : ℤ), 2].getLast (by decide) : ℤ) : ℝ)
            - (([(1 : ℤ), 2].head (by decide) : ℤ) : ℝ)) :=
  ⟨by decide,
   climb_minus_descent_telescopes (fun _ => ⟨0, 0⟩) (fun n => (n : ℝ))
     [1, 2] (by decide)⟩

/-- At the equator, a 90° longitude step gives the haversine intermediate
`a = 1/2`. -/
theorem hav_a_locC_12 : hav_a (locC 1) (locC 2) = 1 / 2 := by
  rw [show locC 1 = ⟨0, 0⟩ from rfl, show locC 2 = ⟨0, 90⟩ from rfl]
  unfold hav_a toRadians
  norm_num
  rw [show (90 : ℝ) * (Real.pi / 180) / 2 = Real.pi / 4 from by ring,
      Real.sin_pi_div_four]
  rw [show Real.sqrt 2 / 2 * (Real.sqrt 2 / 2) = Real.sqrt 2 * Real.sqrt 2 / 4 from by
        ring,
      Real.mul_self_sqrt (by norm_num : (0 : ℝ) ≤ 2)]
  norm_num

/-- The first segment of the counterexample way has positive length. -/
theorem haversine_locC_12_pos : 0 < haversine_distance (locC 1) (locC 2) := by
  unfold haversine_distance
  rw [hav_a_locC_12]
  have h1 : 0 < Real.sqrt (1 / 2) := Real.sqrt_pos.mpr (by norm_num)
  have h2 : 0 ≤ Real.sqrt (1 - 1 / 2) := Real.sqrt_nonneg _
  have h3 := atan2_pos h1 h2
  linarith

/-- C1: on the way `[1, 2, 3]` with elevations `100, 150, 120` the code
adds the cumulative running distance into `climb_distance` and
`descent_distance`, so their sum exceeds the total `distance` and the
claimed invariant `climb_distance + descent_distance = distance` fails. -/
theorem climb_descent_distance_sum_fails :
    (aggregateWay locC elevC [1, 2, 3]).climb_distance
        + (aggregateWay locC elevC [1, 2, 3]).descent_distance
      ≠ (aggregateWay locC elevC [1, 2, 3]).distance := by
  have h12 : elevC 1 < elevC 2 := by norm_num [elevC]
  have h23 : ¬ elevC 2 < elevC 3 := by norm_num [elevC]
  have hpos := haversine_locC_12_pos
  have hfold : aggregateWay locC elevC [1, 2, 3]
      = aggregateStep locC elevC
          (aggregateStep locC elevC ⟨0, 0, 0, 0, 0⟩ (1, 2)) (2, 3) := rfl
  rw [hfold]
  rw [aggregateStep_climb_distance, aggregateStep_descent_distance,
      aggregateStep_distance, aggregateStep_distance,
      aggregateStep_climb_distance, aggregateStep_descent_distance,
      aggregateStep_distance]
  rw [if_pos h12, if_neg h23, if_pos h12, if_neg h23]
  dsimp only
  intro heq
  linarith [heq, hpos]

end OsmSlope
